import Mathlib

/-!
Verification of the chunk-level deduplication upload pipeline of
src/backend/server.js: fixed-size stream chunking, per-chunk dedup against a
chunk index, content-addressed blob storage, and per-file manifest
persistence.

Modelling conventions.
Bytes are lists of naturals.  The SHA-256 hex digest (sha256Hex in the
source) is an abstract parameter of every definition: all properties in
scope depend only on the digest being a deterministic pure function of the
hashed bytes.  The external AWS services (the S3 bucket, the chunks table
and the files table in DynamoDB) are modelled as one explicit state value
of type DB that is threaded through the pipeline.  The outcome of each
remote call that can fail or race is decided by an explicit fault schedule,
so that the happy path and every failure path of the handler are ordinary
executable functions.  Errors carry the DB at the moment of failure,
because writes made to the external stores before a failure persist.
-/

namespace Dedup

/-- Byte sequences, as delivered to the stream data handler. -/
abbrev Bytes := List Nat

/-- CHUNK_SIZE = 5 * 1024 * 1024, the fixed chunk size (5 MiB). -/
def CHUNK_SIZE : Nat := 5 * 1024 * 1024

/-- One record of the chunks table (the chunk index), as written by
ensureChunkStored: hash, size, s3Key, createdAt. -/
structure ChunkRecord where
  hash : String
  size : Nat
  s3Key : String
  createdAt : String
deriving DecidableEq, Repr

/-- One record of the files table: a file manifest, as written by
putFileManifest: fileId, fileName, size, uploadDate, contentHash and the
ordered chunk hash list. -/
structure Manifest where
  fileId : String
  fileName : String
  size : Nat
  uploadDate : String
  contentHash : String
  chunkHashes : List String
deriving DecidableEq, Repr

/-- The state of the external stores: the DynamoDB chunks table, the S3
bucket (keyed blobs) and the DynamoDB files table. -/
structure DB where
  chunksTable : List ChunkRecord
  s3Objects : List (String × Bytes)
  filesTable : List Manifest
deriving DecidableEq, Repr

/-- GetItem on the chunks table: is a record with this hash present. -/
def DB.hasChunk (db : DB) (h : String) : Bool :=
  db.chunksTable.any fun r => r.hash == h

/-- PutObject on the S3 bucket: overwrite the blob stored at this key. -/
def DB.putS3 (db : DB) (k : String) (b : Bytes) : DB :=
  DB.mk db.chunksTable ((k, b) :: db.s3Objects.filter fun p => p.1 != k)
    db.filesTable

/-- Fetch the blob stored at a key of the S3 bucket. -/
def DB.getS3 (db : DB) (k : String) : Option Bytes :=
  (db.s3Objects.find? fun p => p.1 == k).map Prod.snd

/-- Insert a record into the chunks table. -/
def DB.putRecord (db : DB) (r : ChunkRecord) : DB :=
  DB.mk (r :: db.chunksTable) db.s3Objects db.filesTable

/-- PutItem on the files table: append a manifest. -/
def DB.putManifest (db : DB) (m : Manifest) : DB :=
  DB.mk db.chunksTable db.s3Objects (db.filesTable ++ [m])

/-- Outcome of the conditional PutItem into the chunks table:
it succeeds, it fails the attribute_not_exists condition because a
concurrent writer inserted the same hash, or it fails for any other
reason (throttling, network, outage). -/
inductive IdxPutOutcome
  | ok
  | condFail
  | otherErr
deriving DecidableEq, Repr

/-- Fault schedule for the remote calls made on behalf of one chunk:
whether the GetItem presence check throws, whether the S3 PutObject
throws, and the outcome of the conditional index PutItem. -/
structure ChunkFault where
  getFails : Bool
  s3Fails : Bool
  idxPut : IdxPutOutcome
deriving DecidableEq, Repr

/-- The fault-free outcome for one chunk: every remote call succeeds. -/
def benignFault : ChunkFault := ChunkFault.mk false false IdxPutOutcome.ok

/-- ensureChunkStored (server.js lines 27 to 60).  Fast path: GetItem on
the chunks table; if the hash is present, return existed = true without
touching the stores.  Otherwise upload the blob to S3 under the key
chunks/hash, then attempt the conditional PutItem into the chunks table;
the source wraps that PutItem in a try/catch whose catch clause ignores
every error, so both the condition failure and any other index write
failure are swallowed, and existed = false is returned either way. -/
def ensureChunkStored (f : ChunkFault) (chunkHash : String)
    (chunkBuffer : Bytes) (now : String) (db : DB) :
    Except (String × DB) (Bool × DB) :=
  if f.getFails then Except.error ("GetItem failed", db)
  else if db.hasChunk chunkHash then Except.ok (true, db)
  else if f.s3Fails then Except.error ("S3 PutObject failed", db)
  else
    let s3Key := "chunks/" ++ chunkHash
    let db1 := db.putS3 s3Key chunkBuffer
    match f.idxPut with
    | IdxPutOutcome.ok =>
        if db1.hasChunk chunkHash then Except.ok (false, db1)
        else
          Except.ok (false, db1.putRecord
            (ChunkRecord.mk chunkHash chunkBuffer.length s3Key now))
    | IdxPutOutcome.condFail => Except.ok (false, db1)
    | IdxPutOutcome.otherErr => Except.ok (false, db1)

/-- The per-upload mutable state of the handler (server.js lines 92 to
100): the accumulation buffer, the ordered chunk hash list, the two
counters, totalBytes, the bytes fed to the incremental content hasher,
the external store state, and the remaining per-chunk fault schedule. -/
structure UploadState where
  buffered : Bytes
  chunkHashes : List String
  uploadedNewChunks : Nat
  reusedChunks : Nat
  totalBytes : Nat
  hashed : Bytes
  db : DB
  faults : List ChunkFault
deriving Repr

/-- Replace the accumulation buffer of an upload state. -/
def UploadState.setBuffered (st : UploadState) (b : Bytes) : UploadState :=
  UploadState.mk b st.chunkHashes st.uploadedNewChunks st.reusedChunks
    st.totalBytes st.hashed st.db st.faults

/-- Process one emitted chunk (the loop body, server.js lines 115 to 118,
repeated verbatim for the tail chunk at lines 131 to 134): hash the chunk,
call ensureChunkStored with the next scheduled fault, bump reusedChunks or
uploadedNewChunks according to the existed flag, and append the hash to
the ordered chunk hash list. -/
def processChunk (sha256Hex : Bytes → String) (now : String) (chunk : Bytes)
    (st : UploadState) : Except (String × DB) UploadState :=
  let chunkHash := sha256Hex chunk
  match ensureChunkStored (st.faults.headD benignFault) chunkHash chunk now
      st.db with
  | Except.error e => Except.error e
  | Except.ok (existed, db') =>
      Except.ok (UploadState.mk st.buffered (st.chunkHashes ++ [chunkHash])
        (if existed then st.uploadedNewChunks else st.uploadedNewChunks + 1)
        (if existed then st.reusedChunks + 1 else st.reusedChunks)
        st.totalBytes st.hashed db' st.faults.tail)

/-- The while loop of the data handler (server.js lines 111 to 119): as
long as the buffer holds at least CHUNK_SIZE bytes, slice a full chunk off
the front and process it.  The loop is bounded by a fuel parameter; every
caller passes the current buffer length, which is an upper bound on the
iteration count because each iteration removes CHUNK_SIZE (at least one)
bytes from the buffer. -/
def chunkLoop (sha256Hex : Bytes → String) (now : String) :
    Nat → UploadState → Except (String × DB) UploadState
  | 0, st => Except.ok st
  | Nat.succ fuel, st =>
      if CHUNK_SIZE ≤ st.buffered.length then
        let chunk := st.buffered.take CHUNK_SIZE
        match processChunk sha256Hex now chunk
            (st.setBuffered (st.buffered.drop CHUNK_SIZE)) with
        | Except.error e => Except.error e
        | Except.ok st2 => chunkLoop sha256Hex now fuel st2
      else Except.ok st

/-- The first half of the data event handler (server.js lines 106 to 108):
feed the fragment to the content hasher, add its length to totalBytes and
append it to the accumulation buffer. -/
def dataState (d : Bytes) (st : UploadState) : UploadState :=
  UploadState.mk (st.buffered ++ d) st.chunkHashes
    st.uploadedNewChunks st.reusedChunks (st.totalBytes + d.length)
    (st.hashed ++ d) st.db st.faults

/-- The data event handler (server.js lines 103 to 124): feed the fragment
to the content hasher, add its length to totalBytes, append it to the
buffer, then run the chunk loop. -/
def onData (sha256Hex : Bytes → String) (now : String) (d : Bytes)
    (st : UploadState) : Except (String × DB) UploadState :=
  let st1 := dataState d st
  chunkLoop sha256Hex now st1.buffered.length st1

/-- The end event handler (server.js lines 126 to 140): if the buffer is
non-empty, process it as the final short chunk. -/
def onEnd (sha256Hex : Bytes → String) (now : String) (st : UploadState) :
    Except (String × DB) UploadState :=
  if 0 < st.buffered.length then processChunk sha256Hex now st.buffered st
  else Except.ok st

/-- One event delivered by the source read stream: a data fragment of
arbitrary size, or a stream read error. -/
inductive StreamEvent
  | dataEv (b : Bytes)
  | errEv (msg : String)
deriving DecidableEq, Repr

/-- The stream promise (server.js lines 102 to 143): process the events in
order; a stream error rejects, and after the last event the end handler
runs.  The first rejection aborts the whole promise. -/
def processEvents (sha256Hex : Bytes → String) (now : String) :
    List StreamEvent → UploadState → Except (String × DB) UploadState
  | [], st => onEnd sha256Hex now st
  | StreamEvent.dataEv d :: rest, st =>
      match onData sha256Hex now d st with
      | Except.error e => Except.error e
      | Except.ok st1 => processEvents sha256Hex now rest st1
  | StreamEvent.errEv m :: _, st => Except.error (m, st.db)

/-- putFileManifest (server.js lines 62 to 74): an unconditional PutItem
of the manifest into the files table; the fault flag decides whether the
remote call fails. -/
def putFileManifest (fails : Bool) (m : Manifest) (db : DB) :
    Except (String × DB) DB :=
  if fails then Except.error ("manifest PutItem failed", db)
  else Except.ok (db.putManifest m)

/-- Fault schedule for one whole upload: the per-chunk schedule, consumed
one entry per emitted chunk (exhaustion means fault-free), and whether the
manifest PutItem fails. -/
structure Faults where
  chunkFaults : List ChunkFault
  manifestFails : Bool
deriving Repr

/-- The fault-free schedule: every remote call of the upload succeeds. -/
def noFaults : Faults := Faults.mk [] false

/-- The JSON body of the 200 response (server.js lines 159 to 167). -/
structure UploadResponse where
  fileId : String
  fileName : String
  size : Nat
  chunks : Nat
  uploadedNewChunks : Nat
  reusedChunks : Nat
deriving DecidableEq, Repr

/-- The observable outcome of one upload request: a 200 response with the
result record, or a 500 response with an error message; both carry the
final external store state. -/
inductive UpResult
  | success (resp : UploadResponse) (db : DB)
  | failure (msg : String) (db : DB)
deriving DecidableEq, Repr

/-- The upload route handler (server.js lines 85 to 173) for a request
that did provide a file: run the stream promise from the empty initial
state, then compute the whole-file digest, persist the manifest, and
answer 200 with the counters; any rejection is answered with the 500
error message built from the failure. -/
def uploadHandler (sha256Hex : Bytes → String) (now fileId fileName : String)
    (faults : Faults) (events : List StreamEvent) (db : DB) : UpResult :=
  let st0 := UploadState.mk [] [] 0 0 0 [] db faults.chunkFaults
  match processEvents sha256Hex now events st0 with
  | Except.error (e, db') =>
      UpResult.failure ("Error processing file: " ++ e) db'
  | Except.ok st =>
      let contentHash := sha256Hex st.hashed
      match putFileManifest faults.manifestFails
          (Manifest.mk fileId fileName st.totalBytes now contentHash
            st.chunkHashes) st.db with
      | Except.error (e, db') =>
          UpResult.failure ("Error processing file: " ++ e) db'
      | Except.ok db' =>
          UpResult.success
            (UploadResponse.mk fileId fileName st.totalBytes
              st.chunkHashes.length st.uploadedNewChunks st.reusedChunks)
            db'

/-- The full chunks that the while loop slices off the front of a byte
sequence: successive CHUNK_SIZE sized groups, stopping as soon as fewer
than CHUNK_SIZE bytes remain. -/
def fullChunks (s : Bytes) : List Bytes :=
  if h : CHUNK_SIZE ≤ s.length then
    s.take CHUNK_SIZE :: fullChunks (s.drop CHUNK_SIZE)
  else []
termination_by s.length
decreasing_by
  simp only [List.length_drop]
  have hc : 0 < CHUNK_SIZE := by decide
  omega

/-- The remainder left buffered after the while loop has sliced every full
chunk off the front of a byte sequence. -/
def tailRest (s : Bytes) : Bytes :=
  if h : CHUNK_SIZE ≤ s.length then tailRest (s.drop CHUNK_SIZE) else s
termination_by s.length
decreasing_by
  simp only [List.length_drop]
  have hc : 0 < CHUNK_SIZE := by decide
  omega

/-- All chunks the chunker emits for a complete stream: the full chunks,
then the non-empty remainder as the final short chunk. -/
def allChunks (s : Bytes) : List Bytes :=
  fullChunks s ++ (if 0 < (tailRest s).length then [tailRest s] else [])

/-- The postcondition of a fault-free processChunk call, relating the
state before and after one chunk is handled. -/
structure PCSpec (H : Bytes → String) (ch : Bytes) (st st' : UploadState) :
    Prop where
  buffered : st'.buffered = st.buffered
  hashes : st'.chunkHashes = st.chunkHashes ++ [H ch]
  total : st'.totalBytes = st.totalBytes
  hashed : st'.hashed = st.hashed
  faults : st'.faults = []
  files : st'.db.filesTable = st.db.filesTable
  mono : ∀ h, st.db.hasChunk h = true → st'.db.hasChunk h = true
  cover : st'.db.hasChunk (H ch) = true
  count : st'.uploadedNewChunks + st'.reusedChunks =
    st.uploadedNewChunks + st.reusedChunks + 1
  present : st.db.hasChunk (H ch) = true →
    st'.reusedChunks = st.reusedChunks + 1 ∧
    st'.uploadedNewChunks = st.uploadedNewChunks ∧ st'.db = st.db

/-- The postcondition of a fault-free run of the chunk loop. -/
structure LoopSpec (H : Bytes → String) (st st' : UploadState) : Prop where
  buffered : st'.buffered = tailRest st.buffered
  hashes : st'.chunkHashes =
    st.chunkHashes ++ (fullChunks st.buffered).map H
  total : st'.totalBytes = st.totalBytes
  hashed : st'.hashed = st.hashed
  faults : st'.faults = []
  files : st'.db.filesTable = st.db.filesTable
  mono : ∀ h, st.db.hasChunk h = true → st'.db.hasChunk h = true
  cover : ∀ ch ∈ fullChunks st.buffered, st'.db.hasChunk (H ch) = true
  count : st'.uploadedNewChunks + st'.reusedChunks =
    st.uploadedNewChunks + st.reusedChunks + (fullChunks st.buffered).length
  present : (∀ ch ∈ fullChunks st.buffered, st.db.hasChunk (H ch) = true) →
    st'.reusedChunks = st.reusedChunks + (fullChunks st.buffered).length ∧
    st'.uploadedNewChunks = st.uploadedNewChunks ∧ st'.db = st.db

/-- The postcondition of a fault-free run of the rest of the stream
promise: after the remaining data fragments with content s and the end
handler, the chunk hash list has grown by the digests of all chunks of the
buffered bytes followed by s, the byte counters have grown by the length
of s, the files table is untouched, the chunk index only grew, every
emitted chunk ends up present in the index, and when every emitted chunk
was already present at the start, all of them count as reused. -/
structure EvSpec (H : Bytes → String) (s : Bytes) (st st' : UploadState) :
    Prop where
  hashes : st'.chunkHashes =
    st.chunkHashes ++ (allChunks (st.buffered ++ s)).map H
  total : st'.totalBytes = st.totalBytes + s.length
  hashed : st'.hashed = st.hashed ++ s
  files : st'.db.filesTable = st.db.filesTable
  mono : ∀ h, st.db.hasChunk h = true → st'.db.hasChunk h = true
  cover : ∀ ch ∈ allChunks (st.buffered ++ s), st'.db.hasChunk (H ch) = true
  count : st'.uploadedNewChunks + st'.reusedChunks =
    st.uploadedNewChunks + st.reusedChunks +
      (allChunks (st.buffered ++ s)).length
  present : (∀ ch ∈ allChunks (st.buffered ++ s),
      st.db.hasChunk (H ch) = true) →
    st'.reusedChunks = st.reusedChunks + (allChunks (st.buffered ++ s)).length ∧
    st'.uploadedNewChunks = st.uploadedNewChunks ∧ st'.db = st.db

/-- Empty external store state, used by concrete instantiations. -/
def emptyDB : DB := DB.mk [] [] []

/-- A constant digest function, used by concrete instantiations. -/
def hConst (s : String) : Bytes → String := fun _ => s

/-- Fault of one chunk whose conditional index PutItem fails for a reason
other than the condition check, such as throttling or an outage, while the
presence check and the blob write succeed. -/
def idxOutageFault : ChunkFault :=
  ChunkFault.mk false false IdxPutOutcome.otherErr

/-- Fault of one chunk that loses the insert race: the conditional index
PutItem fails its condition because a concurrent writer inserted the same
digest between the presence check and the insert. -/
def raceLossFault : ChunkFault :=
  ChunkFault.mk false false IdxPutOutcome.condFail

/-- Fault of one chunk whose S3 PutObject (the blob write) throws, while
the presence check succeeds. -/
def s3OutageFault : ChunkFault :=
  ChunkFault.mk false true IdxPutOutcome.ok

/-- A fresh per-upload state over a given store state and per-chunk fault
schedule, used by concrete instantiations. -/
def demoState (fs : List ChunkFault) (db : DB) : UploadState :=
  UploadState.mk [] [] 0 0 0 [] db fs

/-- A store state that already holds one chunk record with hash h1, used
by concrete instantiations. -/
def dbWithH1 : DB :=
  DB.mk [ChunkRecord.mk "h1" 1 "chunks/h1" "t0"] [] []

theorem chunk_size_pos : 0 < CHUNK_SIZE := by decide

theorem fullChunks_eq_cons {s : Bytes} (h : CHUNK_SIZE ≤ s.length) :
    fullChunks s = s.take CHUNK_SIZE :: fullChunks (s.drop CHUNK_SIZE) := by
  rw [fullChunks]
  exact dif_pos h

theorem fullChunks_eq_nil {s : Bytes} (h : ¬ CHUNK_SIZE ≤ s.length) :
    fullChunks s = [] := by
  rw [fullChunks]
  exact dif_neg h

theorem tailRest_eq_step {s : Bytes} (h : CHUNK_SIZE ≤ s.length) :
    tailRest s = tailRest (s.drop CHUNK_SIZE) := by
  rw [tailRest]
  exact dif_pos h

theorem tailRest_eq_self {s : Bytes} (h : ¬ CHUNK_SIZE ≤ s.length) :
    tailRest s = s := by
  rw [tailRest]
  exact dif_neg h

theorem tailRest_length (s : Bytes) : (tailRest s).length < CHUNK_SIZE := by
  induction s using tailRest.induct with
  | case1 s h ih =>
      rw [tailRest_eq_step h]
      exact ih
  | case2 s h =>
      rw [tailRest_eq_self h]
      omega

theorem fullChunks_mem_length (s : Bytes) :
    ∀ ch ∈ fullChunks s, ch.length = CHUNK_SIZE := by
  induction s using fullChunks.induct with
  | case1 s h ih =>
      intro ch hm
      rw [fullChunks_eq_cons h] at hm
      rcases List.mem_cons.mp hm with h1 | h2
      · subst h1
        rw [List.length_take]
        omega
      · exact ih ch h2
  | case2 s h =>
      intro ch hm
      rw [fullChunks_eq_nil h] at hm
      cases hm

theorem flatten_fullChunks (s : Bytes) :
    (fullChunks s).flatten ++ tailRest s = s := by
  induction s using fullChunks.induct with
  | case1 s h ih =>
      rw [fullChunks_eq_cons h, tailRest_eq_step h, List.flatten_cons,
        List.append_assoc, ih, List.take_append_drop]
  | case2 s h =>
      rw [fullChunks_eq_nil h, tailRest_eq_self h, List.flatten_nil,
        List.nil_append]

theorem tailRest_nil_of_not_pos {s : Bytes} (h0 : ¬ 0 < (tailRest s).length) :
    tailRest s = [] := by
  cases hte : tailRest s with
  | nil => rfl
  | cons a t =>
      rw [hte] at h0
      simp at h0

theorem allChunks_flatten (s : Bytes) : (allChunks s).flatten = s := by
  unfold allChunks
  by_cases h0 : 0 < (tailRest s).length
  · rw [if_pos h0]
    have hfl := flatten_fullChunks s
    simpa using hfl
  · have ht := tailRest_nil_of_not_pos h0
    have hfl := flatten_fullChunks s
    rw [ht, List.append_nil] at hfl
    rw [if_neg h0, List.append_nil, hfl]

theorem allChunks_sum_length (s : Bytes) :
    ((allChunks s).map List.length).sum = s.length := by
  rw [← List.length_flatten, allChunks_flatten]

theorem allChunks_mem_bounds (s : Bytes) :
    ∀ ch ∈ allChunks s, 0 < ch.length ∧ ch.length ≤ CHUNK_SIZE := by
  intro ch hm
  unfold allChunks at hm
  rcases List.mem_append.mp hm with h1 | h2
  · have hl := fullChunks_mem_length s ch h1
    have hc := chunk_size_pos
    omega
  · by_cases h0 : 0 < (tailRest s).length
    · rw [if_pos h0] at h2
      have hch : ch = tailRest s := List.mem_singleton.mp h2
      subst hch
      exact ⟨h0, Nat.le_of_lt (tailRest_length s)⟩
    · rw [if_neg h0] at h2
      cases h2

theorem allChunks_dropLast_length (s : Bytes) :
    ∀ ch ∈ (allChunks s).dropLast, ch.length = CHUNK_SIZE := by
  intro ch hm
  unfold allChunks at hm
  by_cases h0 : 0 < (tailRest s).length
  · rw [if_pos h0] at hm
    rw [List.dropLast_concat] at hm
    exact fullChunks_mem_length s ch hm
  · rw [if_neg h0, List.append_nil] at hm
    exact fullChunks_mem_length s ch (List.dropLast_subset _ hm)

theorem fullChunks_append (p X : Bytes) :
    fullChunks (p ++ X) = fullChunks p ++ fullChunks (tailRest p ++ X) := by
  induction p using fullChunks.induct with
  | case1 p h ih =>
      have h2 : CHUNK_SIZE ≤ (p ++ X).length := by
        rw [List.length_append]
        omega
      rw [fullChunks_eq_cons h2, List.take_append_of_le_length h,
        List.drop_append_of_le_length h, ih, fullChunks_eq_cons h,
        tailRest_eq_step h, List.cons_append]
  | case2 p h =>
      rw [fullChunks_eq_nil h, tailRest_eq_self h, List.nil_append]

theorem tailRest_append (p X : Bytes) :
    tailRest (p ++ X) = tailRest (tailRest p ++ X) := by
  induction p using tailRest.induct with
  | case1 p h ih =>
      have h2 : CHUNK_SIZE ≤ (p ++ X).length := by
        rw [List.length_append]
        omega
      rw [tailRest_eq_step h2, List.drop_append_of_le_length h, ih,
        tailRest_eq_step h]
  | case2 p h =>
      rw [tailRest_eq_self h]

theorem allChunks_append (p X : Bytes) :
    allChunks (p ++ X) = fullChunks p ++ allChunks (tailRest p ++ X) := by
  unfold allChunks
  rw [fullChunks_append, tailRest_append, List.append_assoc]

theorem allChunks_small {s : Bytes} (h : s.length < CHUNK_SIZE) :
    allChunks s = if 0 < s.length then [s] else [] := by
  unfold allChunks
  rw [fullChunks_eq_nil (by omega), tailRest_eq_self (by omega),
    List.nil_append]

@[simp] theorem hasChunk_putS3 (db : DB) (k : String) (b : Bytes)
    (h : String) : (db.putS3 k b).hasChunk h = db.hasChunk h := rfl

@[simp] theorem hasChunk_putManifest (db : DB) (m : Manifest)
    (h : String) : (db.putManifest m).hasChunk h = db.hasChunk h := rfl

@[simp] theorem filesTable_putS3 (db : DB) (k : String) (b : Bytes) :
    (db.putS3 k b).filesTable = db.filesTable := rfl

@[simp] theorem filesTable_putRecord (db : DB) (r : ChunkRecord) :
    (db.putRecord r).filesTable = db.filesTable := rfl

@[simp] theorem filesTable_putManifest (db : DB) (m : Manifest) :
    (db.putManifest m).filesTable = db.filesTable ++ [m] := rfl

theorem hasChunk_putRecord_mono {db : DB} {h : String} (r : ChunkRecord)
    (hh : db.hasChunk h = true) : (db.putRecord r).hasChunk h = true := by
  simp only [DB.hasChunk, DB.putRecord, List.any_cons, Bool.or_eq_true]
  right
  exact hh

theorem hasChunk_putRecord_self (db : DB) (r : ChunkRecord) :
    (db.putRecord r).hasChunk r.hash = true := by
  simp [DB.hasChunk, DB.putRecord]

theorem getS3_putS3_self (db : DB) (k : String) (b : Bytes) :
    (db.putS3 k b).getS3 k = some b := by
  simp [DB.getS3, DB.putS3, List.find?]

@[simp] theorem getS3_putRecord (db : DB) (r : ChunkRecord) (k : String) :
    (db.putRecord r).getS3 k = db.getS3 k := rfl

theorem ensureChunkStored_present {f : ChunkFault} (hg : f.getFails = false)
    {db : DB} {h : String} (hc : db.hasChunk h = true) (b : Bytes)
    (now : String) : ensureChunkStored f h b now db = Except.ok (true, db) := by
  simp [ensureChunkStored, hg, hc]

theorem ensureChunkStored_absent_ok {f : ChunkFault} (hg : f.getFails = false)
    (hs : f.s3Fails = false) (hi : f.idxPut = IdxPutOutcome.ok)
    {db : DB} {h : String} (hc : db.hasChunk h = false) (b : Bytes)
    (now : String) :
    ensureChunkStored f h b now db =
      Except.ok (false, (db.putS3 ("chunks/" ++ h) b).putRecord
        (ChunkRecord.mk h b.length ("chunks/" ++ h) now)) := by
  simp [ensureChunkStored, hg, hs, hi, hc]

theorem ensureChunkStored_absent_swallowed {f : ChunkFault}
    (hg : f.getFails = false) (hs : f.s3Fails = false)
    (hi : f.idxPut ≠ IdxPutOutcome.ok) {db : DB} {h : String}
    (hc : db.hasChunk h = false) (b : Bytes) (now : String) :
    ensureChunkStored f h b now db =
      Except.ok (false, db.putS3 ("chunks/" ++ h) b) := by
  cases hix : f.idxPut with
  | ok => exact absurd hix hi
  | condFail => simp [ensureChunkStored, hg, hs, hc, hix]
  | otherErr => simp [ensureChunkStored, hg, hs, hc, hix]

/-- Shape of every possible outcome of ensureChunkStored: an error carries
the store state unchanged, a success never touches the files table and
never removes a chunk record. -/
theorem ensureChunkStored_shape (f : ChunkFault) (h : String) (b : Bytes)
    (now : String) (db : DB) :
    (∃ e, ensureChunkStored f h b now db = Except.error (e, db)) ∨
    (∃ ex db', ensureChunkStored f h b now db = Except.ok (ex, db') ∧
      db'.filesTable = db.filesTable ∧
      (∀ hh, db.hasChunk hh = true → db'.hasChunk hh = true)) := by
  by_cases hg : f.getFails
  · left
    exact ⟨"GetItem failed", by simp [ensureChunkStored, hg]⟩
  · by_cases hc : db.hasChunk h = true
    · right
      refine ⟨true, db, ?_, rfl, fun hh hhh => hhh⟩
      simp [ensureChunkStored, hg, hc]
    · by_cases hs : f.s3Fails
      · left
        refine ⟨"S3 PutObject failed", ?_⟩
        simp [ensureChunkStored, hg, hc, hs]
      · right
        have hcf : db.hasChunk h = false := by
          simpa using hc
        cases hix : f.idxPut with
        | ok =>
            refine ⟨false, _, ensureChunkStored_absent_ok
              (by simpa using hg) (by simpa using hs) hix hcf b now,
              rfl, ?_⟩
            intro hh hhh
            exact hasChunk_putRecord_mono _ (by simpa using hhh)
        | condFail =>
            refine ⟨false, _, ensureChunkStored_absent_swallowed
              (by simpa using hg) (by simpa using hs)
              (by rw [hix]; intro hcontra; cases hcontra) hcf b now,
              rfl, ?_⟩
            intro hh hhh
            simpa using hhh
        | otherErr =>
            refine ⟨false, _, ensureChunkStored_absent_swallowed
              (by simpa using hg) (by simpa using hs)
              (by rw [hix]; intro hcontra; cases hcontra) hcf b now,
              rfl, ?_⟩
            intro hh hhh
            simpa using hhh

theorem processChunk_benign (H : Bytes → String) (now : String) (ch : Bytes)
    (st : UploadState) (hf : st.faults = []) :
    ∃ st', processChunk H now ch st = Except.ok st' ∧ PCSpec H ch st st' := by
  by_cases hc : st.db.hasChunk (H ch) = true
  · have hET : ensureChunkStored benignFault (H ch) ch now st.db =
        Except.ok (true, st.db) :=
      ensureChunkStored_present rfl hc ch now
    refine ⟨UploadState.mk st.buffered (st.chunkHashes ++ [H ch])
      st.uploadedNewChunks (st.reusedChunks + 1) st.totalBytes st.hashed
      st.db [], ?_, ?_⟩
    · simp [processChunk, hf, hET]
    · exact ⟨rfl, rfl, rfl, rfl, rfl, rfl, fun h hh => hh, hc,
        by dsimp only; omega, fun _ => ⟨rfl, rfl, rfl⟩⟩
  · have hcf : st.db.hasChunk (H ch) = false := by
      simpa using hc
    have hET : ensureChunkStored benignFault (H ch) ch now st.db =
        Except.ok (false, (st.db.putS3 ("chunks/" ++ H ch) ch).putRecord
          (ChunkRecord.mk (H ch) ch.length ("chunks/" ++ H ch) now)) :=
      ensureChunkStored_absent_ok rfl rfl rfl hcf ch now
    refine ⟨UploadState.mk st.buffered (st.chunkHashes ++ [H ch])
      (st.uploadedNewChunks + 1) st.reusedChunks st.totalBytes st.hashed
      ((st.db.putS3 ("chunks/" ++ H ch) ch).putRecord
        (ChunkRecord.mk (H ch) ch.length ("chunks/" ++ H ch) now)) [],
      ?_, ?_⟩
    · simp [processChunk, hf, hET]
    · refine ⟨rfl, rfl, rfl, rfl, rfl, rfl, ?_, ?_, by dsimp only; omega, ?_⟩
      · intro h hh
        exact hasChunk_putRecord_mono _ (by simpa using hh)
      · exact hasChunk_putRecord_self _ _
      · intro hcontra
        rw [hcf] at hcontra
        cases hcontra

@[simp] theorem setBuffered_buffered (st : UploadState) (b : Bytes) :
    (st.setBuffered b).buffered = b := rfl

@[simp] theorem setBuffered_chunkHashes (st : UploadState) (b : Bytes) :
    (st.setBuffered b).chunkHashes = st.chunkHashes := rfl

@[simp] theorem setBuffered_uploadedNewChunks (st : UploadState) (b : Bytes) :
    (st.setBuffered b).uploadedNewChunks = st.uploadedNewChunks := rfl

@[simp] theorem setBuffered_reusedChunks (st : UploadState) (b : Bytes) :
    (st.setBuffered b).reusedChunks = st.reusedChunks := rfl

@[simp] theorem setBuffered_totalBytes (st : UploadState) (b : Bytes) :
    (st.setBuffered b).totalBytes = st.totalBytes := rfl

@[simp] theorem setBuffered_hashed (st : UploadState) (b : Bytes) :
    (st.setBuffered b).hashed = st.hashed := rfl

@[simp] theorem setBuffered_db (st : UploadState) (b : Bytes) :
    (st.setBuffered b).db = st.db := rfl

@[simp] theorem setBuffered_faults (st : UploadState) (b : Bytes) :
    (st.setBuffered b).faults = st.faults := rfl

theorem loopSpec_of_small {H : Bytes → String} {st : UploadState}
    (hf : st.faults = []) (hcs : ¬ CHUNK_SIZE ≤ st.buffered.length) :
    LoopSpec H st st := by
  have hfc : fullChunks st.buffered = [] := fullChunks_eq_nil hcs
  have htr : tailRest st.buffered = st.buffered := tailRest_eq_self hcs
  refine ⟨htr.symm, ?_, rfl, rfl, hf, rfl, fun h hh => hh, ?_, ?_, ?_⟩
  · rw [hfc]
    simp
  · simp [hfc]
  · rw [hfc]
    simp
  · intro _
    rw [hfc]
    simp

theorem chunkLoop_benign (H : Bytes → String) (now : String) :
    ∀ fuel st, st.faults = [] → st.buffered.length ≤ fuel →
    ∃ st', chunkLoop H now fuel st = Except.ok st' ∧ LoopSpec H st st' := by
  intro fuel
  induction fuel with
  | zero =>
      intro st hf hlen
      have hcs : ¬ CHUNK_SIZE ≤ st.buffered.length := by
        have := chunk_size_pos
        omega
      exact ⟨st, rfl, loopSpec_of_small hf hcs⟩
  | succ fuel ih =>
      intro st hf hlen
      by_cases hcs : CHUNK_SIZE ≤ st.buffered.length
      · obtain ⟨st2, hpc, hspec⟩ := processChunk_benign H now
          (st.buffered.take CHUNK_SIZE)
          (st.setBuffered (st.buffered.drop CHUNK_SIZE)) hf
        have hb2 : st2.buffered = st.buffered.drop CHUNK_SIZE := by
          simpa using hspec.buffered
        have hlen2 : st2.buffered.length ≤ fuel := by
          rw [hb2, List.length_drop]
          have := chunk_size_pos
          omega
        obtain ⟨st3, hcl, hls⟩ := ih st2 hspec.faults hlen2
        have hF : fullChunks st.buffered = st.buffered.take CHUNK_SIZE ::
            fullChunks (st.buffered.drop CHUNK_SIZE) :=
          fullChunks_eq_cons hcs
        have hT : tailRest st.buffered =
            tailRest (st.buffered.drop CHUNK_SIZE) :=
          tailRest_eq_step hcs
        have hch2 : st2.chunkHashes =
            st.chunkHashes ++ [H (st.buffered.take CHUNK_SIZE)] := by
          simpa using hspec.hashes
        have hcnt2 : st2.uploadedNewChunks + st2.reusedChunks =
            st.uploadedNewChunks + st.reusedChunks + 1 := by
          simpa using hspec.count
        refine ⟨st3, ?_, ?_⟩
        · simp only [chunkLoop, if_pos hcs]
          rw [hpc]
          exact hcl
        · refine ⟨?_, ?_, ?_, ?_, hls.faults, ?_, ?_, ?_, ?_, ?_⟩
          · rw [hls.buffered, hb2, hT]
          · rw [hls.hashes, hch2, hb2, hF]
            simp [List.append_assoc]
          · rw [hls.total]
            simpa using hspec.total
          · rw [hls.hashed]
            simpa using hspec.hashed
          · rw [hls.files]
            simpa using hspec.files
          · intro h hh
            exact hls.mono h (hspec.mono h hh)
          · intro ch hm
            rw [hF] at hm
            rcases List.mem_cons.mp hm with h1 | h2
            · subst h1
              exact hls.mono _ hspec.cover
            · exact hls.cover ch (by rw [hb2]; exact h2)
          · rw [hF]
            have h3 := hls.count
            rw [hb2] at h3
            simp only [List.length_cons]
            omega
          · intro hall
            rw [hF] at hall
            have h1 := hall _ (List.mem_cons_self _ _)
            obtain ⟨hr2, hn2, hdb2⟩ := hspec.present h1
            have hr2' : st2.reusedChunks = st.reusedChunks + 1 := by
              simpa using hr2
            have hn2' : st2.uploadedNewChunks = st.uploadedNewChunks := by
              simpa using hn2
            have hdb2' : st2.db = st.db := hdb2
            have hall2 : ∀ ch ∈ fullChunks st2.buffered,
                st2.db.hasChunk (H ch) = true := by
              intro ch hm
              rw [hb2] at hm
              rw [hdb2']
              exact hall ch (List.mem_cons_of_mem _ hm)
            obtain ⟨hr3, hn3, hdb3⟩ := hls.present hall2
            refine ⟨?_, ?_, ?_⟩
            · rw [hr3, hr2', hb2, hF]
              simp only [List.length_cons]
              omega
            · rw [hn3, hn2']
            · rw [hdb3, hdb2']
      · refine ⟨st, ?_, loopSpec_of_small hf hcs⟩
        simp [chunkLoop, hcs]

@[simp] theorem dataState_buffered (d : Bytes) (st : UploadState) :
    (dataState d st).buffered = st.buffered ++ d := rfl

@[simp] theorem dataState_chunkHashes (d : Bytes) (st : UploadState) :
    (dataState d st).chunkHashes = st.chunkHashes := rfl

@[simp] theorem dataState_uploadedNewChunks (d : Bytes) (st : UploadState) :
    (dataState d st).uploadedNewChunks = st.uploadedNewChunks := rfl

@[simp] theorem dataState_reusedChunks (d : Bytes) (st : UploadState) :
    (dataState d st).reusedChunks = st.reusedChunks := rfl

@[simp] theorem dataState_totalBytes (d : Bytes) (st : UploadState) :
    (dataState d st).totalBytes = st.totalBytes + d.length := rfl

@[simp] theorem dataState_hashed (d : Bytes) (st : UploadState) :
    (dataState d st).hashed = st.hashed ++ d := rfl

@[simp] theorem dataState_db (d : Bytes) (st : UploadState) :
    (dataState d st).db = st.db := rfl

@[simp] theorem dataState_faults (d : Bytes) (st : UploadState) :
    (dataState d st).faults = st.faults := rfl

theorem onData_benign (H : Bytes → String) (now : String) (d : Bytes)
    (st : UploadState) (hf : st.faults = []) :
    ∃ st', onData H now d st = Except.ok st' ∧
      LoopSpec H (dataState d st) st' := by
  obtain ⟨st', h, hls⟩ := chunkLoop_benign H now
    (dataState d st).buffered.length (dataState d st) (by simpa using hf)
    (le_refl _)
  exact ⟨st', h, hls⟩

theorem onEnd_benign (H : Bytes → String) (now : String) (st : UploadState)
    (hf : st.faults = []) (hsm : st.buffered.length < CHUNK_SIZE) :
    ∃ st', onEnd H now st = Except.ok st' ∧ EvSpec H [] st st' := by
  have hA : allChunks st.buffered =
      if 0 < st.buffered.length then [st.buffered] else [] :=
    allChunks_small hsm
  by_cases h0 : 0 < st.buffered.length
  · rw [if_pos h0] at hA
    obtain ⟨st', hpc, hspec⟩ := processChunk_benign H now st.buffered st hf
    refine ⟨st', ?_, ?_⟩
    · simp only [onEnd, if_pos h0]
      exact hpc
    · refine ⟨?_, ?_, ?_, hspec.files, hspec.mono, ?_, ?_, ?_⟩
      · rw [hspec.hashes, List.append_nil, hA]
        simp
      · rw [hspec.total, List.length_nil, Nat.add_zero]
      · rw [hspec.hashed, List.append_nil]
      · intro ch hm
        rw [List.append_nil, hA] at hm
        have hch : ch = st.buffered := List.mem_singleton.mp hm
        subst hch
        exact hspec.cover
      · rw [List.append_nil, hA, List.length_singleton]
        exact hspec.count
      · intro hall
        rw [List.append_nil, hA] at hall ⊢
        have h1 := hall st.buffered (List.mem_singleton_self _)
        obtain ⟨hr, hn, hdb⟩ := hspec.present h1
        exact ⟨by rw [hr, List.length_singleton], hn, hdb⟩
  · have hb : st.buffered = [] := by
      cases hbe : st.buffered with
      | nil => rfl
      | cons a t =>
          rw [hbe] at h0
          simp at h0
    rw [if_neg h0] at hA
    refine ⟨st, ?_, ?_⟩
    · simp only [onEnd, if_neg h0]
    · refine ⟨?_, ?_, ?_, rfl, fun h hh => hh, ?_, ?_, ?_⟩
      · rw [List.append_nil, hA]
        simp
      · rw [List.length_nil, Nat.add_zero]
      · rw [List.append_nil]
      · intro ch hm
        rw [List.append_nil, hA] at hm
        cases hm
      · rw [List.append_nil, hA, List.length_nil, Nat.add_zero]
      · intro _
        rw [List.append_nil, hA, List.length_nil, Nat.add_zero]
        exact ⟨rfl, rfl, rfl⟩

theorem processEvents_data_benign (H : Bytes → String) (now : String) :
    ∀ (frags : List Bytes) (st : UploadState), st.faults = [] →
    st.buffered.length < CHUNK_SIZE →
    ∃ st', processEvents H now (frags.map StreamEvent.dataEv) st =
      Except.ok st' ∧ EvSpec H frags.flatten st st' := by
  intro frags
  induction frags with
  | nil =>
      intro st hf hsm
      obtain ⟨st', he, hev⟩ := onEnd_benign H now st hf hsm
      exact ⟨st', he, hev⟩
  | cons d frags ih =>
      intro st hf hsm
      obtain ⟨st1, hd, hls⟩ := onData_benign H now d st hf
      have hb1 : st1.buffered = tailRest (st.buffered ++ d) := by
        simpa using hls.buffered
      have hsm1 : st1.buffered.length < CHUNK_SIZE := by
        rw [hb1]
        exact tailRest_length _
      have hch1 : st1.chunkHashes =
          st.chunkHashes ++ (fullChunks (st.buffered ++ d)).map H := by
        simpa using hls.hashes
      have htot1 : st1.totalBytes = st.totalBytes + d.length := by
        simpa using hls.total
      have hhd1 : st1.hashed = st.hashed ++ d := by
        simpa using hls.hashed
      have hfi1 : st1.db.filesTable = st.db.filesTable := by
        simpa using hls.files
      have hmono1 : ∀ h, st.db.hasChunk h = true →
          st1.db.hasChunk h = true := by
        intro h hh
        exact hls.mono h hh
      have hcov1 : ∀ ch ∈ fullChunks (st.buffered ++ d),
          st1.db.hasChunk (H ch) = true := by
        intro ch hm
        exact hls.cover ch (by simpa using hm)
      have hcnt1 : st1.uploadedNewChunks + st1.reusedChunks =
          st.uploadedNewChunks + st.reusedChunks +
            (fullChunks (st.buffered ++ d)).length := by
        simpa using hls.count
      obtain ⟨st', hpe, hev⟩ := ih st1 hls.faults hsm1
      have haC : allChunks (st.buffered ++ (d :: frags).flatten) =
          fullChunks (st.buffered ++ d) ++
            allChunks (st1.buffered ++ frags.flatten) := by
        rw [List.flatten_cons, ← List.append_assoc, allChunks_append, hb1]
      refine ⟨st', ?_, ?_⟩
      · simp only [List.map_cons, processEvents]
        rw [hd]
        exact hpe
      · refine ⟨?_, ?_, ?_, ?_, ?_, ?_, ?_, ?_⟩
        · rw [hev.hashes, hch1, haC]
          simp [List.append_assoc]
        · rw [hev.total, htot1, List.flatten_cons, List.length_append]
          omega
        · rw [hev.hashed, hhd1, List.flatten_cons, List.append_assoc]
        · rw [hev.files, hfi1]
        · intro h hh
          exact hev.mono h (hmono1 h hh)
        · intro ch hm
          rw [haC] at hm
          rcases List.mem_append.mp hm with h1 | h2
          · exact hev.mono _ (hcov1 ch h1)
          · exact hev.cover ch h2
        · rw [haC, List.length_append]
          have h3 := hev.count
          omega
        · intro hall
          rw [haC] at hall
          have hallL : ∀ ch ∈ fullChunks (st.buffered ++ d),
              st.db.hasChunk (H ch) = true := by
            intro ch hm
            exact hall ch (List.mem_append_left _ hm)
          obtain ⟨hr1, hn1, hdb1⟩ := hls.present
            (by intro ch hm; exact hallL ch (by simpa using hm))
          have hr1' : st1.reusedChunks = st.reusedChunks +
              (fullChunks (st.buffered ++ d)).length := by
            simpa using hr1
          have hn1' : st1.uploadedNewChunks = st.uploadedNewChunks := by
            simpa using hn1
          have hdb1' : st1.db = st.db := hdb1
          have hallR : ∀ ch ∈ allChunks (st1.buffered ++ frags.flatten),
              st1.db.hasChunk (H ch) = true := by
            intro ch hm
            rw [hdb1']
            exact hall ch (List.mem_append_right _ hm)
          obtain ⟨hr2, hn2, hdb2⟩ := hev.present hallR
          refine ⟨?_, ?_, ?_⟩
          · rw [hr2, hr1', haC, List.length_append]
            omega
          · rw [hn2, hn1']
          · rw [hdb2, hdb1']

/-- Characterization of a fault-free upload of a fragment list: the
handler answers 200 with size equal to the total stream length and chunk
count equal to the number of chunks of the concatenated stream, appends to
the files table exactly one manifest carrying the whole-stream digest and
the digests of all chunks in order, leaves every emitted chunk present in
the chunk index, only grows the index, and reports every chunk as reused
when all of them were already indexed. -/
theorem uploadHandler_noFaults (H : Bytes → String) (now fid fn : String)
    (frags : List Bytes) (db : DB) :
    ∃ nNew nReu dbF,
      uploadHandler H now fid fn noFaults (frags.map StreamEvent.dataEv) db =
        UpResult.success (UploadResponse.mk fid fn frags.flatten.length
          (allChunks frags.flatten).length nNew nReu) dbF ∧
      dbF.filesTable = db.filesTable ++ [Manifest.mk fid fn
        frags.flatten.length now (H frags.flatten)
        ((allChunks frags.flatten).map H)] ∧
      (∀ ch ∈ allChunks frags.flatten, dbF.hasChunk (H ch) = true) ∧
      (∀ h, db.hasChunk h = true → dbF.hasChunk h = true) ∧
      nNew + nReu = (allChunks frags.flatten).length ∧
      ((∀ ch ∈ allChunks frags.flatten, db.hasChunk (H ch) = true) →
        nReu = (allChunks frags.flatten).length ∧ nNew = 0) := by
  obtain ⟨st', hpe, hev⟩ := processEvents_data_benign H now frags
    (UploadState.mk [] [] 0 0 0 [] db []) rfl
    (by simpa using chunk_size_pos)
  have hch : st'.chunkHashes = (allChunks frags.flatten).map H := by
    simpa using hev.hashes
  have htot : st'.totalBytes = frags.flatten.length := by
    simpa using hev.total
  have hhsh : st'.hashed = frags.flatten := by
    simpa using hev.hashed
  have hfi : st'.db.filesTable = db.filesTable := by
    simpa using hev.files
  have hcov : ∀ ch ∈ allChunks frags.flatten,
      st'.db.hasChunk (H ch) = true := by
    intro ch hm
    exact hev.cover ch (by simpa using hm)
  have hmono : ∀ h, db.hasChunk h = true → st'.db.hasChunk h = true :=
    fun h hh => hev.mono h hh
  have hcnt : st'.uploadedNewChunks + st'.reusedChunks =
      (allChunks frags.flatten).length := by
    simpa using hev.count
  refine ⟨st'.uploadedNewChunks, st'.reusedChunks,
    st'.db.putManifest (Manifest.mk fid fn frags.flatten.length now
      (H frags.flatten) ((allChunks frags.flatten).map H)),
    ?_, ?_, ?_, ?_, hcnt, ?_⟩
  · simp only [uploadHandler, noFaults]
    rw [hpe]
    simp only [putFileManifest, if_neg (by simp : ¬ (false : Bool) = true)]
    rw [htot, hch, hhsh]
    simp [List.length_map]
  · rw [filesTable_putManifest, hfi]
  · intro ch hm
    rw [hasChunk_putManifest]
    exact hcov ch hm
  · intro h hh
    rw [hasChunk_putManifest]
    exact hmono h hh
  · intro hall
    obtain ⟨hr, hn, _⟩ := hev.present
      (by intro ch hm; simpa using hall ch (by simpa using hm))
    exact ⟨by simpa using hr, by simpa using hn⟩

/-- Shape of every possible outcome of processChunk, for an arbitrary
fault: an error leaves the files table as it was, a success appends
exactly one hash, bumps exactly one of the two counters, and leaves the
buffer and the files table as they were. -/
theorem processChunk_shape (H : Bytes → String) (now : String) (ch : Bytes)
    (st : UploadState) :
    (∃ e db', processChunk H now ch st = Except.error (e, db') ∧
      db'.filesTable = st.db.filesTable) ∨
    (∃ st', processChunk H now ch st = Except.ok st' ∧
      st'.buffered = st.buffered ∧
      st'.chunkHashes.length = st.chunkHashes.length + 1 ∧
      st'.uploadedNewChunks + st'.reusedChunks =
        st.uploadedNewChunks + st.reusedChunks + 1 ∧
      st'.db.filesTable = st.db.filesTable) := by
  rcases ensureChunkStored_shape (st.faults.headD benignFault) (H ch) ch now
      st.db with ⟨e, he⟩ | ⟨ex, db', hok, hfile, _⟩
  · left
    exact ⟨e, st.db, by simp only [processChunk]; rw [he], rfl⟩
  · right
    refine ⟨UploadState.mk st.buffered (st.chunkHashes ++ [H ch])
      (if ex then st.uploadedNewChunks else st.uploadedNewChunks + 1)
      (if ex then st.reusedChunks + 1 else st.reusedChunks)
      st.totalBytes st.hashed db' st.faults.tail,
      by simp only [processChunk]; rw [hok], rfl, by simp, ?_, hfile⟩
    cases ex <;> simp <;> omega

/-- Shape of every possible outcome of the chunk loop, for an arbitrary
fault schedule: the files table is never touched, and on success the
growth of the hash list equals the combined growth of the two
counters. -/
theorem chunkLoop_shape (H : Bytes → String) (now : String) :
    ∀ fuel st,
    (∃ e db', chunkLoop H now fuel st = Except.error (e, db') ∧
      db'.filesTable = st.db.filesTable) ∨
    (∃ st', chunkLoop H now fuel st = Except.ok st' ∧
      st'.chunkHashes.length + st.uploadedNewChunks + st.reusedChunks =
        st.chunkHashes.length + st'.uploadedNewChunks + st'.reusedChunks ∧
      st'.db.filesTable = st.db.filesTable) := by
  intro fuel
  induction fuel with
  | zero =>
      intro st
      right
      exact ⟨st, rfl, by omega, rfl⟩
  | succ fuel ih =>
      intro st
      by_cases hcs : CHUNK_SIZE ≤ st.buffered.length
      · rcases processChunk_shape H now (st.buffered.take CHUNK_SIZE)
            (st.setBuffered (st.buffered.drop CHUNK_SIZE)) with
          ⟨e, db', hpc, hfi⟩ | ⟨st2, hpc, _, hlen, hcnt, hfi⟩
        · left
          refine ⟨e, db', ?_, by simpa using hfi⟩
          simp only [chunkLoop, if_pos hcs]
          rw [hpc]
        · rcases ih st2 with ⟨e, db', hcl, hfi2⟩ | ⟨st3, hcl, hcross, hfi2⟩
          · left
            refine ⟨e, db', ?_, ?_⟩
            · simp only [chunkLoop, if_pos hcs]
              rw [hpc]
              exact hcl
            · rw [hfi2]
              simpa using hfi
          · right
            refine ⟨st3, ?_, ?_, ?_⟩
            · simp only [chunkLoop, if_pos hcs]
              rw [hpc]
              exact hcl
            · have h1 : st2.chunkHashes.length =
                  st.chunkHashes.length + 1 := by
                simpa using hlen
              have h2 : st2.uploadedNewChunks + st2.reusedChunks =
                  st.uploadedNewChunks + st.reusedChunks + 1 := by
                simpa using hcnt
              omega
            · rw [hfi2]
              simpa using hfi
      · right
        refine ⟨st, ?_, by omega, rfl⟩
        simp [chunkLoop, hcs]

/-- Shape of every possible outcome of one stream promise run, for an
arbitrary fault schedule and arbitrary events: the files table is never
touched, and on success the length of the hash list accounts exactly for
the combined growth of the two counters. -/
theorem processEvents_shape (H : Bytes → String) (now : String) :
    ∀ (events : List StreamEvent) (st : UploadState),
    (∃ e db', processEvents H now events st = Except.error (e, db') ∧
      db'.filesTable = st.db.filesTable) ∨
    (∃ st', processEvents H now events st = Except.ok st' ∧
      st'.chunkHashes.length + st.uploadedNewChunks + st.reusedChunks =
        st.chunkHashes.length + st'.uploadedNewChunks + st'.reusedChunks ∧
      st'.db.filesTable = st.db.filesTable) := by
  intro events
  induction events with
  | nil =>
      intro st
      by_cases h0 : 0 < st.buffered.length
      · rcases processChunk_shape H now st.buffered st with
          ⟨e, db', hpc, hfi⟩ | ⟨st2, hpc, _, hlen, hcnt, hfi⟩
        · left
          refine ⟨e, db', ?_, hfi⟩
          simp only [processEvents, onEnd, if_pos h0]
          exact hpc
        · right
          refine ⟨st2, ?_, by omega, hfi⟩
          simp only [processEvents, onEnd, if_pos h0]
          exact hpc
      · right
        refine ⟨st, ?_, by omega, rfl⟩
        simp [processEvents, onEnd, h0]
  | cons ev rest ih =>
      intro st
      cases ev with
      | dataEv d =>
          rcases chunkLoop_shape H now (dataState d st).buffered.length
              (dataState d st) with
            ⟨e, db', hcl, hfi⟩ | ⟨st1, hcl, hcross, hfi⟩
          · left
            refine ⟨e, db', ?_, by simpa using hfi⟩
            simp only [processEvents, onData]
            rw [hcl]
          · rcases ih st1 with ⟨e, db', hpe, hfi2⟩ | ⟨st', hpe, hcross2, hfi2⟩
            · left
              refine ⟨e, db', ?_, ?_⟩
              · simp only [processEvents, onData]
                rw [hcl]
                exact hpe
              · rw [hfi2]
                simpa using hfi
            · right
              refine ⟨st', ?_, ?_, ?_⟩
              · simp only [processEvents, onData]
                rw [hcl]
                exact hpe
              · have h1 : st1.chunkHashes.length + st.uploadedNewChunks +
                    st.reusedChunks = st.chunkHashes.length +
                      st1.uploadedNewChunks + st1.reusedChunks := by
                  simpa using hcross
                omega
              · rw [hfi2]
                simpa using hfi
      | errEv m =>
          left
          exact ⟨m, st.db, rfl, rfl⟩

/-- A fault-free stream promise with no stream error always resolves. -/
theorem processEvents_benign_no_err (H : Bytes → String) (now : String) :
    ∀ (events : List StreamEvent) (st : UploadState), st.faults = [] →
    (∀ m, StreamEvent.errEv m ∉ events) →
    ∃ st', processEvents H now events st = Except.ok st' := by
  intro events
  induction events with
  | nil =>
      intro st hf _
      by_cases h0 : 0 < st.buffered.length
      · obtain ⟨st', hpc, _⟩ := processChunk_benign H now st.buffered st hf
        refine ⟨st', ?_⟩
        simp only [processEvents, onEnd, if_pos h0]
        exact hpc
      · refine ⟨st, ?_⟩
        simp [processEvents, onEnd, h0]
  | cons ev rest ih =>
      intro st hf hne
      cases ev with
      | dataEv d =>
          obtain ⟨st1, hd, hls⟩ := onData_benign H now d st hf
          obtain ⟨st', hpe⟩ := ih st1 hls.faults
            (fun m hm => hne m (List.mem_cons_of_mem _ hm))
          refine ⟨st', ?_⟩
          simp only [processEvents]
          rw [hd]
          exact hpe
      | errEv m =>
          exact absurd (List.mem_cons_self _ _) (hne m)

/-- A fault-free stream promise whose events contain a stream error always
rejects. -/
theorem processEvents_benign_err (H : Bytes → String) (now : String) :
    ∀ (events : List StreamEvent) (st : UploadState), st.faults = [] →
    (∃ m, StreamEvent.errEv m ∈ events) →
    ∃ p, processEvents H now events st = Except.error p := by
  intro events
  induction events with
  | nil =>
      intro st _ hex
      obtain ⟨m, hm⟩ := hex
      cases hm
  | cons ev rest ih =>
      intro st hf hex
      cases ev with
      | dataEv d =>
          obtain ⟨m, hm⟩ := hex
          rcases List.mem_cons.mp hm with h1 | h2
          · cases h1
          · obtain ⟨st1, hd, hls⟩ := onData_benign H now d st hf
            obtain ⟨p, hpe⟩ := ih st1 hls.faults ⟨m, h2⟩
            refine ⟨p, ?_⟩
            simp only [processEvents]
            rw [hd]
            exact hpe
      | errEv m' =>
          exact ⟨(m', st.db), rfl⟩

/-- When the buffer holds fewer than CHUNK_SIZE bytes, the chunk loop does
nothing, whatever the fuel. -/
theorem chunkLoop_no_chunk (H : Bytes → String) (now : String)
    {st : UploadState} (hcs : ¬ CHUNK_SIZE ≤ st.buffered.length) :
    ∀ fuel, chunkLoop H now fuel st = Except.ok st := by
  intro fuel
  cases fuel with
  | zero => rfl
  | succ fuel => simp [chunkLoop, hcs]

/-- When the buffer holds a full chunk, the scheduled fault for the next
chunk has a throwing S3 PutObject (and a working presence check), and the
digest of that first chunk is absent from the index, the chunk loop
rejects with the S3 error and the store state at the moment of failure,
which is unchanged. -/
theorem chunkLoop_s3_fail_first (H : Bytes → String) (now : String)
    (fuel : Nat) (st : UploadState) (f : ChunkFault)
    (frest : List ChunkFault) (hf : st.faults = f :: frest)
    (hg : f.getFails = false) (hs : f.s3Fails = true)
    (hcs : CHUNK_SIZE ≤ st.buffered.length)
    (hfuel : st.buffered.length ≤ fuel)
    (hc : st.db.hasChunk (H (st.buffered.take CHUNK_SIZE)) = false) :
    chunkLoop H now fuel st = Except.error ("S3 PutObject failed", st.db) := by
  cases fuel with
  | zero =>
      have := chunk_size_pos
      omega
  | succ fuel =>
      have hens : ensureChunkStored
          ((st.setBuffered (st.buffered.drop CHUNK_SIZE)).faults.headD
            benignFault)
          (H (st.buffered.take CHUNK_SIZE)) (st.buffered.take CHUNK_SIZE)
          now (st.setBuffered (st.buffered.drop CHUNK_SIZE)).db =
          Except.error ("S3 PutObject failed", st.db) := by
        simp only [setBuffered_faults, setBuffered_db, hf, List.headD_cons]
        simp [ensureChunkStored, hg, hc, hs]
      simp only [chunkLoop, if_pos hcs, processChunk]
      rw [hens]

/-- A data-event-only stream whose content is non-empty, processed under a
fault schedule whose first entry has a throwing S3 PutObject and a working
presence check, rejects with the S3 error as soon as the first chunk is
emitted, provided the digest of that first chunk is absent from the
index; the store state is returned unchanged, since no write happened
before the failure. -/
theorem processEvents_s3_fail_first (H : Bytes → String) (now : String) :
    ∀ (frags : List Bytes) (st : UploadState) (f : ChunkFault)
      (frest : List ChunkFault), st.faults = f :: frest →
    f.getFails = false → f.s3Fails = true →
    st.buffered.length < CHUNK_SIZE →
    0 < (st.buffered ++ frags.flatten).length →
    st.db.hasChunk
      (H ((allChunks (st.buffered ++ frags.flatten)).headD [])) = false →
    processEvents H now (frags.map StreamEvent.dataEv) st =
      Except.error ("S3 PutObject failed", st.db) := by
  intro frags
  induction frags with
  | nil =>
      intro st f frest hf hg hs hsm hpos hc
      rw [List.flatten_nil, List.append_nil] at hpos hc
      have hA : allChunks st.buffered = [st.buffered] := by
        rw [allChunks_small hsm, if_pos hpos]
      rw [hA] at hc
      simp only [List.headD_cons] at hc
      have hens : ensureChunkStored (st.faults.headD benignFault)
          (H st.buffered) st.buffered now st.db =
          Except.error ("S3 PutObject failed", st.db) := by
        rw [hf]
        simp only [List.headD_cons]
        simp [ensureChunkStored, hg, hc, hs]
      simp only [List.map_nil, processEvents, onEnd, if_pos hpos,
        processChunk]
      rw [hens]
  | cons d frags ih =>
      intro st f frest hf hg hs hsm hpos hc
      by_cases hcs : CHUNK_SIZE ≤ (st.buffered ++ d).length
      · have h2 : CHUNK_SIZE ≤ ((st.buffered ++ d) ++ frags.flatten).length := by
          rw [List.length_append]
          omega
        have hhead : (allChunks (st.buffered ++ (d :: frags).flatten)).headD
            [] = (st.buffered ++ d).take CHUNK_SIZE := by
          rw [List.flatten_cons, ← List.append_assoc]
          unfold allChunks
          rw [fullChunks_eq_cons h2, List.take_append_of_le_length hcs]
          simp only [List.cons_append, List.headD_cons]
        rw [hhead] at hc
        have hloop := chunkLoop_s3_fail_first H now
          (dataState d st).buffered.length (dataState d st) f frest
          (by simpa using hf) hg hs (by simpa using hcs) (le_refl _)
          (by simpa using hc)
        simp only [List.map_cons, processEvents, onData]
        rw [hloop]
        rfl
      · push_neg at hcs
        have hnot : ¬ CHUNK_SIZE ≤ (dataState d st).buffered.length := by
          simp only [dataState_buffered]
          omega
        have hok : onData H now d st = Except.ok (dataState d st) := by
          simp only [onData]
          exact chunkLoop_no_chunk H now hnot _
        have hpos1 : 0 < ((dataState d st).buffered ++
            frags.flatten).length := by
          rw [List.flatten_cons, ← List.append_assoc] at hpos
          simpa using hpos
        have hc1 : (dataState d st).db.hasChunk
            (H ((allChunks ((dataState d st).buffered ++
              frags.flatten)).headD [])) = false := by
          rw [List.flatten_cons, ← List.append_assoc] at hc
          simpa using hc
        have hrec := ih (dataState d st) f frest (by simpa using hf) hg hs
          (by simpa using hcs) hpos1 hc1
        simp only [List.map_cons, processEvents]
        rw [hok]
        exact hrec

/-- C1: for every input byte stream, delivered as arbitrary fragments, the
fault-free upload succeeds; the manifest records the digests of exactly
the chunks of the concatenated stream in order and the response counts
them; the chunk lengths sum to the total stream length; every chunk except
possibly the last has length exactly CHUNK_SIZE; and every chunk, the last
included, has positive length at most CHUNK_SIZE, so an empty stream
yields zero chunks. -/
theorem claim_C1_chunk_lengths (sha256Hex : Bytes → String)
    (now fid fn : String) (frags : List Bytes) (db : DB) :
    ∃ nNew nReu dbF,
      uploadHandler sha256Hex now fid fn noFaults
          (frags.map StreamEvent.dataEv) db =
        UpResult.success (UploadResponse.mk fid fn frags.flatten.length
          (allChunks frags.flatten).length nNew nReu) dbF ∧
      dbF.filesTable = db.filesTable ++ [Manifest.mk fid fn
        frags.flatten.length now (sha256Hex frags.flatten)
        ((allChunks frags.flatten).map sha256Hex)] ∧
      ((allChunks frags.flatten).map List.length).sum =
        frags.flatten.length ∧
      (∀ ch ∈ (allChunks frags.flatten).dropLast,
        ch.length = CHUNK_SIZE) ∧
      (∀ ch ∈ allChunks frags.flatten,
        0 < ch.length ∧ ch.length ≤ CHUNK_SIZE) := by
  obtain ⟨nNew, nReu, dbF, hrun, hfi, _, _, _, _⟩ :=
    uploadHandler_noFaults sha256Hex now fid fn frags db
  exact ⟨nNew, nReu, dbF, hrun, hfi, allChunks_sum_length _,
    allChunks_dropLast_length _, allChunks_mem_bounds _⟩

theorem claim_C1_witness :
    ∃ nNew nReu dbF,
      uploadHandler (hConst "d") "t" "i" "f" noFaults
          (([[1], [2, 3]] : List Bytes).map StreamEvent.dataEv) emptyDB =
        UpResult.success (UploadResponse.mk "i" "f"
          ([[1], [2, 3]] : List Bytes).flatten.length
          (allChunks ([[1], [2, 3]] : List Bytes).flatten).length nNew nReu)
          dbF ∧
      dbF.filesTable = emptyDB.filesTable ++ [Manifest.mk "i" "f"
        ([[1], [2, 3]] : List Bytes).flatten.length "t"
        (hConst "d" ([[1], [2, 3]] : List Bytes).flatten)
        ((allChunks ([[1], [2, 3]] : List Bytes).flatten).map (hConst "d"))] ∧
      ((allChunks ([[1], [2, 3]] : List Bytes).flatten).map List.length).sum =
        ([[1], [2, 3]] : List Bytes).flatten.length ∧
      (∀ ch ∈ (allChunks ([[1], [2, 3]] : List Bytes).flatten).dropLast,
        ch.length = CHUNK_SIZE) ∧
      (∀ ch ∈ allChunks ([[1], [2, 3]] : List Bytes).flatten,
        0 < ch.length ∧ ch.length ≤ CHUNK_SIZE) :=
  claim_C1_chunk_lengths (hConst "d") "t" "i" "f" [[1], [2, 3]] emptyDB

/-- C5: for every fault-free upload, the persisted manifest carries as
contentHash the digest of the full concatenated byte stream and as size
the total byte count, which equals the sum of the chunk byte lengths in
order, independently of how the stream was fragmented. -/
theorem claim_C5_whole_file_digest (sha256Hex : Bytes → String)
    (now fid fn : String) (frags : List Bytes) (db : DB) :
    ∃ nNew nReu dbF,
      uploadHandler sha256Hex now fid fn noFaults
          (frags.map StreamEvent.dataEv) db =
        UpResult.success (UploadResponse.mk fid fn frags.flatten.length
          (allChunks frags.flatten).length nNew nReu) dbF ∧
      dbF.filesTable = db.filesTable ++ [Manifest.mk fid fn
        frags.flatten.length now (sha256Hex frags.flatten)
        ((allChunks frags.flatten).map sha256Hex)] ∧
      frags.flatten.length = ((allChunks frags.flatten).map List.length).sum := by
  obtain ⟨nNew, nReu, dbF, hrun, hfi, _, _, _, _⟩ :=
    uploadHandler_noFaults sha256Hex now fid fn frags db
  exact ⟨nNew, nReu, dbF, hrun, hfi, (allChunks_sum_length _).symm⟩

theorem claim_C5_witness :
    ∃ nNew nReu dbF,
      uploadHandler (hConst "d") "t" "i" "f" noFaults
          (([[4, 5, 6]] : List Bytes).map StreamEvent.dataEv) emptyDB =
        UpResult.success (UploadResponse.mk "i" "f"
          ([[4, 5, 6]] : List Bytes).flatten.length
          (allChunks ([[4, 5, 6]] : List Bytes).flatten).length nNew nReu)
          dbF ∧
      dbF.filesTable = emptyDB.filesTable ++ [Manifest.mk "i" "f"
        ([[4, 5, 6]] : List Bytes).flatten.length "t"
        (hConst "d" ([[4, 5, 6]] : List Bytes).flatten)
        ((allChunks ([[4, 5, 6]] : List Bytes).flatten).map (hConst "d"))] ∧
      ([[4, 5, 6]] : List Bytes).flatten.length =
        ((allChunks ([[4, 5, 6]] : List Bytes).flatten).map List.length).sum :=
  claim_C5_whole_file_digest (hConst "d") "t" "i" "f" [[4, 5, 6]] emptyDB

/-- C4: chunking is deterministic with respect to fragment boundaries: two
fault-free uploads of the same byte stream, split into arbitrarily
different fragments and run against arbitrary store states, persist
manifests with the same ordered chunk digest sequence and the same whole
file digest. -/
theorem claim_C4_deterministic_chunking (sha256Hex : Bytes → String)
    (now1 now2 fid1 fid2 fn1 fn2 : String) (frags1 frags2 : List Bytes)
    (db1 db2 : DB) (hsame : frags1.flatten = frags2.flatten) :
    ∃ r1 dbF1 m1 r2 dbF2 m2,
      uploadHandler sha256Hex now1 fid1 fn1 noFaults
        (frags1.map StreamEvent.dataEv) db1 = UpResult.success r1 dbF1 ∧
      dbF1.filesTable = db1.filesTable ++ [m1] ∧
      uploadHandler sha256Hex now2 fid2 fn2 noFaults
        (frags2.map StreamEvent.dataEv) db2 = UpResult.success r2 dbF2 ∧
      dbF2.filesTable = db2.filesTable ++ [m2] ∧
      m1.chunkHashes = m2.chunkHashes ∧
      m1.contentHash = m2.contentHash := by
  obtain ⟨n1, u1, dbF1, hrun1, hfi1, _, _, _, _⟩ :=
    uploadHandler_noFaults sha256Hex now1 fid1 fn1 frags1 db1
  obtain ⟨n2, u2, dbF2, hrun2, hfi2, _, _, _, _⟩ :=
    uploadHandler_noFaults sha256Hex now2 fid2 fn2 frags2 db2
  refine ⟨_, dbF1, _, _, dbF2, _, hrun1, hfi1, hrun2, hfi2, ?_, ?_⟩
  · dsimp only
    rw [hsame]
  · dsimp only
    rw [hsame]

theorem claim_C4_witness :
    ([[1, 2], [3]] : List Bytes).flatten =
      ([[1], [2, 3]] : List Bytes).flatten ∧
    ∃ r1 dbF1 m1 r2 dbF2 m2,
      uploadHandler (hConst "d") "t1" "i1" "f1" noFaults
        (([[1, 2], [3]] : List Bytes).map StreamEvent.dataEv) emptyDB =
        UpResult.success r1 dbF1 ∧
      dbF1.filesTable = emptyDB.filesTable ++ [m1] ∧
      uploadHandler (hConst "d") "t2" "i2" "f2" noFaults
        (([[1], [2, 3]] : List Bytes).map StreamEvent.dataEv) emptyDB =
        UpResult.success r2 dbF2 ∧
      dbF2.filesTable = emptyDB.filesTable ++ [m2] ∧
      m1.chunkHashes = m2.chunkHashes ∧
      m1.contentHash = m2.contentHash :=
  ⟨rfl, claim_C4_deterministic_chunking (hConst "d") "t1" "t2" "i1" "i2"
    "f1" "f2" [[1, 2], [3]] [[1], [2, 3]] emptyDB emptyDB rfl⟩

/-- C8: an empty input stream yields a successful upload with zero chunks,
zero total bytes and zero counters, and still persists a manifest with an
empty chunk list, total byte length zero and the digest of zero bytes as
its content hash. -/
theorem claim_C8_empty_stream (sha256Hex : Bytes → String)
    (now fid fn : String) (db : DB) :
    uploadHandler sha256Hex now fid fn noFaults [] db =
      UpResult.success (UploadResponse.mk fid fn 0 0 0 0)
        (db.putManifest (Manifest.mk fid fn 0 now (sha256Hex []) [])) := rfl

/-- C2: for a chunk whose remote calls do not throw, the engine counts the
chunk reused exactly when the index reports its digest present, and then
leaves the store untouched; when absent it stores the blob keyed by the
digest and attempts the conditional insert, counting the chunk as new even
when the insert loses the race to a concurrent writer; and in every case
the digest is appended to the ordered chunk list of the manifest. -/
theorem claim_C2_per_chunk_decision (sha256Hex : Bytes → String)
    (now : String) (ch : Bytes) (f : ChunkFault) (st : UploadState)
    (hf : st.faults = [f]) (hg : f.getFails = false)
    (hs : f.s3Fails = false) :
    ∃ st', processChunk sha256Hex now ch st = Except.ok st' ∧
      st'.chunkHashes = st.chunkHashes ++ [sha256Hex ch] ∧
      (st.db.hasChunk (sha256Hex ch) = true →
        st'.reusedChunks = st.reusedChunks + 1 ∧
        st'.uploadedNewChunks = st.uploadedNewChunks ∧ st'.db = st.db) ∧
      (st.db.hasChunk (sha256Hex ch) = false →
        st'.uploadedNewChunks = st.uploadedNewChunks + 1 ∧
        st'.reusedChunks = st.reusedChunks ∧
        st'.db.getS3 ("chunks/" ++ sha256Hex ch) = some ch ∧
        (f.idxPut = IdxPutOutcome.ok →
          st'.db.hasChunk (sha256Hex ch) = true) ∧
        (f.idxPut ≠ IdxPutOutcome.ok →
          st'.db.chunksTable = st.db.chunksTable)) := by
  by_cases hc : st.db.hasChunk (sha256Hex ch) = true
  · have h1 := ensureChunkStored_present hg hc ch now
    refine ⟨UploadState.mk st.buffered (st.chunkHashes ++ [sha256Hex ch])
      st.uploadedNewChunks (st.reusedChunks + 1) st.totalBytes st.hashed
      st.db [], ?_, rfl, ?_, ?_⟩
    · simp only [processChunk, hf, List.headD_cons, List.tail_cons]
      rw [h1]
      rfl
    · intro _
      exact ⟨rfl, rfl, rfl⟩
    · intro hcc
      rw [hc] at hcc
      cases hcc
  · have hcf : st.db.hasChunk (sha256Hex ch) = false := by
      simpa using hc
    by_cases hix : f.idxPut = IdxPutOutcome.ok
    · have h1 := ensureChunkStored_absent_ok hg hs hix hcf ch now
      refine ⟨UploadState.mk st.buffered (st.chunkHashes ++ [sha256Hex ch])
        (st.uploadedNewChunks + 1) st.reusedChunks st.totalBytes st.hashed
        ((st.db.putS3 ("chunks/" ++ sha256Hex ch) ch).putRecord
          (ChunkRecord.mk (sha256Hex ch) ch.length
            ("chunks/" ++ sha256Hex ch) now)) [], ?_, rfl, ?_, ?_⟩
      · simp only [processChunk, hf, List.headD_cons, List.tail_cons]
        rw [h1]
        rfl
      · intro hcc
        rw [hcf] at hcc
        cases hcc
      · intro _
        refine ⟨rfl, rfl, ?_, fun _ => hasChunk_putRecord_self _ _,
          fun hne => absurd hix hne⟩
        rw [getS3_putRecord]
        exact getS3_putS3_self _ _ _
    · have h1 := ensureChunkStored_absent_swallowed hg hs hix hcf ch now
      refine ⟨UploadState.mk st.buffered (st.chunkHashes ++ [sha256Hex ch])
        (st.uploadedNewChunks + 1) st.reusedChunks st.totalBytes st.hashed
        (st.db.putS3 ("chunks/" ++ sha256Hex ch) ch) [], ?_, rfl, ?_, ?_⟩
      · simp only [processChunk, hf, List.headD_cons, List.tail_cons]
        rw [h1]
        rfl
      · intro hcc
        rw [hcf] at hcc
        cases hcc
      · intro _
        exact ⟨rfl, rfl, getS3_putS3_self _ _ _, fun hok => absurd hok hix,
          fun _ => rfl⟩

theorem claim_C2_witness :
    (demoState [raceLossFault] emptyDB).faults = [raceLossFault] ∧
    raceLossFault.getFails = false ∧ raceLossFault.s3Fails = false ∧
    ∃ st', processChunk (hConst "hx") "t" [5]
        (demoState [raceLossFault] emptyDB) = Except.ok st' ∧
      st'.chunkHashes = (demoState [raceLossFault] emptyDB).chunkHashes ++
        [hConst "hx" [5]] ∧
      ((demoState [raceLossFault] emptyDB).db.hasChunk (hConst "hx" [5]) =
          true →
        st'.reusedChunks =
          (demoState [raceLossFault] emptyDB).reusedChunks + 1 ∧
        st'.uploadedNewChunks =
          (demoState [raceLossFault] emptyDB).uploadedNewChunks ∧
        st'.db = (demoState [raceLossFault] emptyDB).db) ∧
      ((demoState [raceLossFault] emptyDB).db.hasChunk (hConst "hx" [5]) =
          false →
        st'.uploadedNewChunks =
          (demoState [raceLossFault] emptyDB).uploadedNewChunks + 1 ∧
        st'.reusedChunks = (demoState [raceLossFault] emptyDB).reusedChunks ∧
        st'.db.getS3 ("chunks/" ++ hConst "hx" [5]) = some [5] ∧
        (raceLossFault.idxPut = IdxPutOutcome.ok →
          st'.db.hasChunk (hConst "hx" [5]) = true) ∧
        (raceLossFault.idxPut ≠ IdxPutOutcome.ok →
          st'.db.chunksTable =
            (demoState [raceLossFault] emptyDB).db.chunksTable)) :=
  ⟨rfl, rfl, rfl, claim_C2_per_chunk_decision (hConst "hx") "t" [5]
    raceLossFault (demoState [raceLossFault] emptyDB) rfl rfl rfl⟩

/-- C9: when the index reports the digest of a chunk as present and the
presence check does not throw, ensureChunkStored returns existed without
any write to the blob store or the chunk index, the store state is
returned unchanged, and the surrounding loop body only bumps the reused
counter and appends the digest. -/
theorem claim_C9_present_frame (sha256Hex : Bytes → String) (now : String)
    (ch : Bytes) (f : ChunkFault) (st : UploadState)
    (hf : st.faults = [f]) (hg : f.getFails = false)
    (hc : st.db.hasChunk (sha256Hex ch) = true) :
    ensureChunkStored f (sha256Hex ch) ch now st.db =
      Except.ok (true, st.db) ∧
    processChunk sha256Hex now ch st = Except.ok (UploadState.mk
      st.buffered (st.chunkHashes ++ [sha256Hex ch]) st.uploadedNewChunks
      (st.reusedChunks + 1) st.totalBytes st.hashed st.db []) := by
  have h1 := ensureChunkStored_present hg hc ch now
  refine ⟨h1, ?_⟩
  simp only [processChunk, hf, List.headD_cons, List.tail_cons]
  rw [h1]
  rfl

theorem claim_C9_witness :
    (demoState [benignFault] dbWithH1).faults = [benignFault] ∧
    benignFault.getFails = false ∧
    (demoState [benignFault] dbWithH1).db.hasChunk (hConst "h1" [9]) =
      true ∧
    (ensureChunkStored benignFault (hConst "h1" [9]) [9] "t"
        (demoState [benignFault] dbWithH1).db =
      Except.ok (true, (demoState [benignFault] dbWithH1).db) ∧
    processChunk (hConst "h1") "t" [9] (demoState [benignFault] dbWithH1) =
      Except.ok (UploadState.mk (demoState [benignFault] dbWithH1).buffered
        ((demoState [benignFault] dbWithH1).chunkHashes ++ [hConst "h1" [9]])
        (demoState [benignFault] dbWithH1).uploadedNewChunks
        ((demoState [benignFault] dbWithH1).reusedChunks + 1)
        (demoState [benignFault] dbWithH1).totalBytes
        (demoState [benignFault] dbWithH1).hashed
        (demoState [benignFault] dbWithH1).db [])) :=
  ⟨rfl, rfl, by decide, claim_C9_present_frame (hConst "h1") "t" [9]
    benignFault (demoState [benignFault] dbWithH1) rfl rfl (by decide)⟩

/-- C3: behavior of the code at the failing input for this claim.  One new
chunk is uploaded while the conditional index PutItem fails for a reason
other than the condition check (an index outage).  The catch clause of
ensureChunkStored swallows the failure, so the upload completes with a 200
response that counts the chunk as new, the blob is in the store and the
manifest is persisted, but the chunks table holds no record of the chunk;
no failure is surfaced to the caller, contradicting the claim that a
metadata write failure other than the already-exists race aborts the
upload. -/
theorem claim_C3_swallowed_index_failure :
    uploadHandler (hConst "h7") "t" "id1" "file.bin"
        (Faults.mk [idxOutageFault] false)
        [StreamEvent.dataEv [7]] emptyDB =
      UpResult.success (UploadResponse.mk "id1" "file.bin" 1 1 1 0)
        (DB.mk [] [("chunks/h7", [7])]
          [Manifest.mk "id1" "file.bin" 1 "t" "h7" ["h7"]]) := by decide

/-- C10: every successful upload, under an arbitrary fault schedule and
arbitrary stream events, reports counters with chunks equal to
uploadedNewChunks plus reusedChunks, where chunks is the length of the
chunk digest list of the manifest. -/
theorem claim_C10_counter_invariant (sha256Hex : Bytes → String)
    (now fid fn : String) (faults : Faults) (events : List StreamEvent)
    (db : DB) (r : UploadResponse) (dbF : DB)
    (h : uploadHandler sha256Hex now fid fn faults events db =
      UpResult.success r dbF) :
    r.chunks = r.uploadedNewChunks + r.reusedChunks := by
  simp only [uploadHandler] at h
  rcases processEvents_shape sha256Hex now events
      (UploadState.mk [] [] 0 0 0 [] db faults.chunkFaults) with
    ⟨e, db', hpe, _⟩ | ⟨st', hpe, hcross, _⟩
  · rw [hpe] at h
    simp at h
  · rw [hpe] at h
    have hc2 : st'.chunkHashes.length =
        st'.uploadedNewChunks + st'.reusedChunks := by
      simpa using hcross
    cases hmf : faults.manifestFails with
    | true =>
        simp [putFileManifest, hmf] at h
    | false =>
        simp only [putFileManifest, hmf, Bool.false_eq_true, if_false,
          UpResult.success.injEq] at h
        rcases h with ⟨h1, _⟩
        subst h1
        dsimp only
        exact hc2

theorem claim_C10_witness :
    uploadHandler (hConst "d") "t" "i" "f" noFaults [] emptyDB =
      UpResult.success (UploadResponse.mk "i" "f" 0 0 0 0)
        (emptyDB.putManifest (Manifest.mk "i" "f" 0 "t" (hConst "d" []) [])) ∧
    (UploadResponse.mk "i" "f" 0 0 0 0).chunks =
      (UploadResponse.mk "i" "f" 0 0 0 0).uploadedNewChunks +
        (UploadResponse.mk "i" "f" 0 0 0 0).reusedChunks :=
  ⟨rfl, claim_C10_counter_invariant (hConst "d") "t" "i" "f" noFaults []
    emptyDB (UploadResponse.mk "i" "f" 0 0 0 0)
    (emptyDB.putManifest (Manifest.mk "i" "f" 0 "t" (hConst "d" []) []))
    rfl⟩

/-- C6: whenever an upload fails, for any fault schedule and any events,
the caller gets a single failure built from the error message, and the
files table is exactly as it was before the upload, so no manifest, not
even a partial one, is persisted; moreover each of the three enumerated
failure kinds does make the upload fail: under a fault-free per-chunk
schedule, a stream read error or a manifest persistence failure causes a
failure, and a chunk blob write failure, scheduled for the first emitted
chunk of a non-empty stream whose digest is not yet indexed (the only
situation in which the blob write is attempted), rejects the upload with
the S3 error and leaves the whole store untouched. -/
theorem claim_C6_failure_atomicity (sha256Hex : Bytes → String)
    (now fid fn : String) (faults : Faults) (events : List StreamEvent)
    (db : DB) :
    (∀ msg dbF, uploadHandler sha256Hex now fid fn faults events db =
        UpResult.failure msg dbF →
      dbF.filesTable = db.filesTable ∧
      ∃ e, msg = "Error processing file: " ++ e) ∧
    (faults.chunkFaults = [] →
      ((∃ m, StreamEvent.errEv m ∈ events) ∨ faults.manifestFails = true) →
      ∃ msg dbF, uploadHandler sha256Hex now fid fn faults events db =
        UpResult.failure msg dbF) ∧
    (∀ (f : ChunkFault) (frest : List ChunkFault) (frags : List Bytes),
      faults.chunkFaults = f :: frest → f.getFails = false →
      f.s3Fails = true → events = frags.map StreamEvent.dataEv →
      0 < frags.flatten.length →
      db.hasChunk (sha256Hex ((allChunks frags.flatten).headD [])) = false →
      uploadHandler sha256Hex now fid fn faults events db =
        UpResult.failure ("Error processing file: " ++ "S3 PutObject failed")
          db) := by
  have hpart1 : ∀ msg dbF, uploadHandler sha256Hex now fid fn faults events
      db = UpResult.failure msg dbF →
      dbF.filesTable = db.filesTable ∧
      ∃ e, msg = "Error processing file: " ++ e := by
    intro msg dbF hEq
    simp only [uploadHandler] at hEq
    rcases processEvents_shape sha256Hex now events
        (UploadState.mk [] [] 0 0 0 [] db faults.chunkFaults) with
      ⟨e, db', hpe, hfi⟩ | ⟨st', hpe, _, hfi⟩
    · rw [hpe] at hEq
      have hEq2 : UpResult.failure ("Error processing file: " ++ e) db' =
          UpResult.failure msg dbF := hEq
      injection hEq2 with h1 h2
      subst h1 h2
      exact ⟨hfi, e, rfl⟩
    · rw [hpe] at hEq
      cases hmf : faults.manifestFails with
      | false =>
          simp [putFileManifest, hmf] at hEq
      | true =>
          simp only [putFileManifest, hmf, if_true] at hEq
          have hEq2 : UpResult.failure
              ("Error processing file: " ++ "manifest PutItem failed")
              st'.db = UpResult.failure msg dbF := hEq
          injection hEq2 with h1 h2
          subst h1 h2
          exact ⟨hfi, "manifest PutItem failed", rfl⟩
  refine ⟨hpart1, ?_, ?_⟩
  · intro hcf hor
    by_cases herr : ∃ m, StreamEvent.errEv m ∈ events
    · obtain ⟨p, hpe⟩ := processEvents_benign_err sha256Hex now events
        (UploadState.mk [] [] 0 0 0 [] db faults.chunkFaults) hcf herr
      rcases p with ⟨e, dbe⟩
      refine ⟨"Error processing file: " ++ e, dbe, ?_⟩
      simp only [uploadHandler]
      rw [hpe]
    · rcases hor with hm | hmf
      · exact absurd hm herr
      · push_neg at herr
        obtain ⟨st', hpe⟩ := processEvents_benign_no_err sha256Hex now
          events (UploadState.mk [] [] 0 0 0 [] db faults.chunkFaults) hcf
          herr
        refine ⟨"Error processing file: " ++ "manifest PutItem failed",
          st'.db, ?_⟩
        simp only [uploadHandler]
        rw [hpe]
        simp only [putFileManifest, hmf, if_true]
  · intro f frest frags hcf hg hs hev hpos hc
    subst hev
    have hpe := processEvents_s3_fail_first sha256Hex now frags
      (UploadState.mk [] [] 0 0 0 [] db faults.chunkFaults) f frest hcf hg
      hs (by simpa using chunk_size_pos) (by simpa using hpos)
      (by simpa using hc)
    simp only [uploadHandler]
    rw [hpe]

theorem claim_C6_witness :
    (uploadHandler (hConst "d") "t" "i" "f" noFaults
        [StreamEvent.errEv "boom"] emptyDB =
      UpResult.failure "Error processing file: boom" emptyDB ∧
    (emptyDB.filesTable = emptyDB.filesTable ∧
      ∃ e, "Error processing file: boom" = "Error processing file: " ++ e)) ∧
    uploadHandler (hConst "d") "t" "i" "f" (Faults.mk [s3OutageFault] false)
        (([[7]] : List Bytes).map StreamEvent.dataEv) emptyDB =
      UpResult.failure ("Error processing file: " ++ "S3 PutObject failed")
        emptyDB :=
  ⟨⟨by decide, (claim_C6_failure_atomicity (hConst "d") "t" "i" "f" noFaults
    [StreamEvent.errEv "boom"] emptyDB).1 "Error processing file: boom"
    emptyDB (by decide)⟩,
    (claim_C6_failure_atomicity (hConst "d") "t" "i" "f"
      (Faults.mk [s3OutageFault] false)
      (([[7]] : List Bytes).map StreamEvent.dataEv) emptyDB).2.2
      s3OutageFault [] [[7]] rfl rfl rfl rfl (by decide) rfl⟩

/-- C7: running the engine twice on byte identical content, fault-free,
persists two manifests with the same ordered chunk digest list and the
same whole file digest but with the distinct fileIds generated for the two
uploads, and the second run reports every chunk as reused and zero new
chunks, the index reflecting the first run. -/
theorem claim_C7_rerun_idempotence (sha256Hex : Bytes → String)
    (now1 now2 u1 u2 fn1 fn2 : String) (frags1 frags2 : List Bytes)
    (db : DB) (hid : u1 ≠ u2) (hsame : frags1.flatten = frags2.flatten) :
    ∃ r1 dbF1 m1 r2 dbF2 m2,
      uploadHandler sha256Hex now1 u1 fn1 noFaults
        (frags1.map StreamEvent.dataEv) db = UpResult.success r1 dbF1 ∧
      dbF1.filesTable = db.filesTable ++ [m1] ∧
      uploadHandler sha256Hex now2 u2 fn2 noFaults
        (frags2.map StreamEvent.dataEv) dbF1 = UpResult.success r2 dbF2 ∧
      dbF2.filesTable = dbF1.filesTable ++ [m2] ∧
      m1.chunkHashes = m2.chunkHashes ∧
      m1.contentHash = m2.contentHash ∧
      m1.fileId = u1 ∧ m2.fileId = u2 ∧ m1.fileId ≠ m2.fileId ∧
      r2.reusedChunks = r2.chunks ∧ r2.uploadedNewChunks = 0 := by
  obtain ⟨n1, w1, dbF1, hrun1, hfi1, hcov1, _, _, _⟩ :=
    uploadHandler_noFaults sha256Hex now1 u1 fn1 frags1 db
  obtain ⟨n2, w2, dbF2, hrun2, hfi2, _, _, _, hpres2⟩ :=
    uploadHandler_noFaults sha256Hex now2 u2 fn2 frags2 dbF1
  have hall : ∀ ch ∈ allChunks frags2.flatten,
      dbF1.hasChunk (sha256Hex ch) = true := by
    intro ch hm
    rw [← hsame] at hm
    exact hcov1 ch hm
  obtain ⟨hreu, hnew⟩ := hpres2 hall
  subst hreu hnew
  refine ⟨_, dbF1, _, _, dbF2, _, hrun1, hfi1, hrun2, hfi2, ?_, ?_, rfl,
    rfl, hid, rfl, rfl⟩
  · dsimp only
    rw [hsame]
  · dsimp only
    rw [hsame]

theorem claim_C7_witness :
    ("a" : String) ≠ "b" ∧
    ([[1, 2]] : List Bytes).flatten = ([[1, 2]] : List Bytes).flatten ∧
    ∃ r1 dbF1 m1 r2 dbF2 m2,
      uploadHandler (hConst "d") "t1" "a" "f1" noFaults
        (([[1, 2]] : List Bytes).map StreamEvent.dataEv) emptyDB =
        UpResult.success r1 dbF1 ∧
      dbF1.filesTable = emptyDB.filesTable ++ [m1] ∧
      uploadHandler (hConst "d") "t2" "b" "f2" noFaults
        (([[1, 2]] : List Bytes).map StreamEvent.dataEv) dbF1 =
        UpResult.success r2 dbF2 ∧
      dbF2.filesTable = dbF1.filesTable ++ [m2] ∧
      m1.chunkHashes = m2.chunkHashes ∧
      m1.contentHash = m2.contentHash ∧
      m1.fileId = "a" ∧ m2.fileId = "b" ∧ m1.fileId ≠ m2.fileId ∧
      r2.reusedChunks = r2.chunks ∧ r2.uploadedNewChunks = 0 :=
  ⟨by decide, rfl, claim_C7_rerun_idempotence (hConst "d") "t1" "t2" "a"
    "b" "f1" "f2" [[1, 2]] [[1, 2]] emptyDB (by decide) rfl⟩

end Dedup
